import Mathlib

/-!
# RGB matrix demo (`led_matrix_m1284/main.c`)

A shallow embedding of the demo program `main` and of the driver contract
it is written against.  `main` is an endless loop; it is embedded as a
deterministic step function on an explicit control state, each step
emitting at most one call of the driver API.  The header `RgbMatrix.h`
is not part of the sources, so the grid dimensions and the buffering
switches are parameters of the embedding.
-/

namespace RgbMatrix

/-! ## Machine arithmetic -/

/-- Increment of a `uint8_t` counter (`++x`, `++y`): wraps from 255 to 0. -/
def incU8 (v : Nat) : Nat := (v + 1) % 256

/-- Reduction of an integer to the 16-bit two-complement range of the
AVR `int`.  The C standard leaves signed overflow undefined; the
embedding takes the wrap-around of the target. -/
def wrapInt16 (v : Int) : Int := (v + 32768) % 65536 - 32768

/-- Post-increment of the `int` counter (`xx++`). -/
def incInt16 (v : Int) : Int := wrapInt16 (v + 1)

/-- Conversion of an `int` value to an 8-bit unsigned type: reduction
modulo 256. -/
def narrow8 (v : Int) : Nat := (v % 256).toNat

/-! ## Build configuration -/

/-- Compile-time configuration: the macros `main.c` reads from the
missing header and from the build flags. -/
structure Config where
  NB_COLUMNS_COUNT : Nat
  NB_LINES_COUNT : Nat
  USE_DOUBLE_BUFFERING : Bool
  USE_TRIPLE_BUFFERING : Bool
  deriving DecidableEq, Repr

/-- The preprocessor condition of line 53:
`defined(USE_DOUBLE_BUFFERING) || defined(USE_TRIPLE_BUFFERING)`. -/
def Config.rotates (cfg : Config) : Bool :=
  cfg.USE_DOUBLE_BUFFERING || cfg.USE_TRIPLE_BUFFERING

/-! ## Driver calls issued by `main` -/

/-- A call of the driver API.  `setPixelAt` carries the values of the five
argument expressions: `x` and `y` are `uint8_t`, the colour expressions
(`xx`, `rand()%128`, `rand()%128`) have type `int`. -/
inductive Call where
  | setupMatrixDriver
  | setPixelAt (x y : Nat) (r g b : Int)
  | rotateFramebuffer
  deriving DecidableEq, Repr

/-- Whether a call is a pixel write. -/
def Call.isSetPixel : Call → Bool
  | .setPixelAt _ _ _ _ _ => true
  | _ => false

/-- Coordinates of a pixel write. -/
def Call.coords : Call → Option (Nat × Nat)
  | .setPixelAt x y _ _ _ => some (x, y)
  | _ => none

/-- Value of the red argument expression of a pixel write. -/
def Call.redExpr : Call → Option Int
  | .setPixelAt _ _ r _ _ => some r
  | _ => none

/-- Modelled from the spec: the prototype of `setPixelAt` is in the missing
header `RgbMatrix.h`; its colour parameters are 8-bit intensities (0..255).
The colour triple a pixel write hands to the driver is each argument
expression converted to that parameter type. -/
def Call.colour8 : Call → Option (Nat × Nat × Nat)
  | .setPixelAt _ _ r g b => some (narrow8 r, narrow8 g, narrow8 b)
  | _ => none

/-! ## Control state of `main` -/

/-- Program points of `main` between which one step runs. -/
inductive Loc where
  /-- Line 12, before `setupMatrixDriver()`. -/
  | entry
  /-- Line 15, top of `for(;;)`, before `y = 0`. -/
  | loopTop
  /-- Line 23, test `y < NB_LINES_COUNT`. -/
  | yTest
  /-- Line 26, test `x < NB_COLUMNS_COUNT`. -/
  | xTest
  /-- Line 53, after the line loop. -/
  | frameEnd
  deriving DecidableEq, Repr

/-- Variables of `main`.  The statics `r`, `g`, `b` of lines 18 to 20 are
only used inside the commented-out block and are left out.  `randCalls`
counts the calls of `rand()` made so far. -/
structure State where
  loc : Loc
  xx : Int
  x : Nat
  y : Nat
  randCalls : Nat
  deriving DecidableEq, Repr

/-- State on entry of `main`: `int xx=0`. -/
def init : State := { loc := .entry, xx := 0, x := 0, y := 0, randCalls := 0 }

/-- One step of `main`.  `rnd i` is the value returned by the `i`-th call
of `rand()`, the two calls of line 43 numbered from left to right (C
leaves their order open); `%` on `int` is the truncating remainder of C. -/
def step (cfg : Config) (rnd : Nat → Int) (s : State) : State × Option Call :=
  match s.loc with
  | .entry => ({ s with loc := .loopTop }, some .setupMatrixDriver)
  | .loopTop => ({ s with loc := .yTest, y := 0 }, none)
  | .yTest =>
    if s.y < cfg.NB_LINES_COUNT then ({ s with loc := .xTest, x := 0 }, none)
    else ({ s with loc := .frameEnd }, none)
  | .xTest =>
    if s.x < cfg.NB_COLUMNS_COUNT then
      ({ s with x := incU8 s.x, xx := incInt16 s.xx, randCalls := s.randCalls + 2 },
        some (.setPixelAt s.x s.y s.xx
          (Int.tmod (rnd s.randCalls) 128) (Int.tmod (rnd (s.randCalls + 1)) 128)))
    else ({ s with loc := .yTest, y := incU8 s.y }, none)
  | .frameEnd =>
    ({ s with loc := .loopTop },
      if cfg.rotates then some .rotateFramebuffer else none)

/-- State after `n` steps. -/
def exec (cfg : Config) (rnd : Nat → Int) : Nat → State → State
  | 0, s => s
  | n + 1, s => exec cfg rnd n (step cfg rnd s).1

/-- Driver calls issued during `n` steps, in order. -/
def trace (cfg : Config) (rnd : Nat → Int) : Nat → State → List Call
  | 0, _ => []
  | n + 1, s => (step cfg rnd s).2.toList ++ trace cfg rnd n (step cfg rnd s).1

/-- Pixel writes issued during `n` steps. -/
def pixelCalls (cfg : Config) (rnd : Nat → Int) (n : Nat) (s : State) : List Call :=
  (trace cfg rnd n s).filter Call.isSetPixel

/-- The `k`-th pixel write of a drawing pass (counted from 0) that starts
with counter value `xx0` after `rc0` calls of `rand()`, on a grid
`COLUMNS` wide: column `k mod COLUMNS`, row `k div COLUMNS`, red
expression `xx0` incremented `k` times. -/
def passCall (rnd : Nat → Int) (COLUMNS : Nat) (xx0 : Int) (rc0 : Nat) (k : Nat) : Call :=
  .setPixelAt (k % COLUMNS) (k / COLUMNS) (incInt16^[k] xx0)
    (Int.tmod (rnd (rc0 + 2 * k)) 128) (Int.tmod (rnd (rc0 + 2 * k + 1)) 128)

/-- Number of steps of one drawing pass, from the top of `for(;;)` to the
program point after the line loop. -/
def passSteps (cfg : Config) : Nat :=
  cfg.NB_LINES_COUNT * (cfg.NB_COLUMNS_COUNT + 2) + 2

/-- Number of steps of one iteration of `for(;;)`. -/
def frameSteps (cfg : Config) : Nat := passSteps cfg + 1

/-- The calls `main` issues at the end of an iteration of `for(;;)`. -/
def frameEndCalls (cfg : Config) : List Call :=
  if cfg.rotates then [Call.rotateFramebuffer] else []

/-- The rotation clause of the main loop in configuration `cfg`, first
half: every iteration of `for(;;)` that the run from `init` begins (at
step `t`) also ends (after `n` further steps, not earlier), and the calls
it issues are pixel writes followed by exactly one `rotateFramebuffer`. -/
def IterationRotatesOnce (cfg : Config) : Prop :=
  ∀ (rnd : Nat → Int) (t : Nat), (exec cfg rnd t init).loc = .loopTop →
    ∃ (n : Nat) (pixels : List Call), 0 < n
      ∧ (exec cfg rnd (t + n) init).loc = .loopTop
      ∧ (∀ m, 0 < m → m < n → (exec cfg rnd (t + m) init).loc ≠ .loopTop)
      ∧ trace cfg rnd n (exec cfg rnd t init) = pixels ++ [Call.rotateFramebuffer]
      ∧ ∀ c ∈ pixels, c.isSetPixel = true

/-- The rotation clause of the main loop, second half: `main` never calls
`rotateFramebuffer`. -/
def NeverRotates (cfg : Config) : Prop :=
  ∀ (rnd : Nat → Int) (n : Nat), Call.rotateFramebuffer ∉ trace cfg rnd n init

/-- The rotation clause of the main loop: one rotation per iteration,
after the drawing pass, in a build with `USE_DOUBLE_BUFFERING` or
`USE_TRIPLE_BUFFERING`; no rotation in a build with neither. -/
def RotationContract (cfg : Config) : Prop :=
  (cfg.rotates = true → IterationRotatesOnce cfg) ∧ (cfg.rotates = false → NeverRotates cfg)

/-- The `k`-th pixel write of a run that stays in row 0 for ever: the
8-bit column counter has wrapped `k div 256` times. -/
def row0Call (rnd : Nat → Int) (k : Nat) : Call :=
  .setPixelAt (k % 256) 0 (wrapInt16 k)
    (Int.tmod (rnd (2 * k)) 128) (Int.tmod (rnd (2 * k + 1)) 128)

/-- What holds of every state of a run on a grid of at least 256 columns
and at least one line: the program point behind the line loop is not
reached, `y` is 0 inside the loops and `x` is an 8-bit value. -/
def WideInv (s : State) : Prop :=
  s.loc ≠ .frameEnd ∧ (s.loc = .yTest ∨ s.loc = .xTest → s.y = 0)
    ∧ (s.loc = .xTest → s.x < 256)

/-- Number of iterations of `for(;;)` completed within the first `n`
steps of the run from `init`: the steps taken from the program point
behind the line loop. -/
def framesDone (cfg : Config) (rnd : Nat → Int) : Nat → Nat
  | 0 => 0
  | n + 1 => framesDone cfg rnd n + (if (exec cfg rnd n init).loc = .frameEnd then 1 else 0)

/-- What relates a state of `main` to the number `f` of iterations
completed and the number `cnt` of pixel writes issued so far: `xx` is
`cnt` (in 16-bit arithmetic), and `cnt` is determined by the program
point: each completed iteration has issued `LINES * COLUMNS` writes, each
completed row `COLUMNS`.  `j` and `i` are the numbers of increments of `y`
and `x` in the current pass and row, of which the 8-bit counters hold the
remainder modulo 256. -/
def CounterInv (cfg : Config) (s : State) (f cnt : Nat) : Prop :=
  s.xx = wrapInt16 cnt ∧
  match s.loc with
  | .entry => f = 0 ∧ cnt = 0
  | .loopTop => cnt = f * (cfg.NB_LINES_COUNT * cfg.NB_COLUMNS_COUNT)
  | .yTest => ∃ j, s.y = j % 256
      ∧ cnt = f * (cfg.NB_LINES_COUNT * cfg.NB_COLUMNS_COUNT) + j * cfg.NB_COLUMNS_COUNT
      ∧ (j ≤ cfg.NB_LINES_COUNT ∨ 256 ≤ cfg.NB_LINES_COUNT)
  | .xTest => ∃ j i, s.y = j % 256 ∧ s.x = i % 256
      ∧ cnt = f * (cfg.NB_LINES_COUNT * cfg.NB_COLUMNS_COUNT) + j * cfg.NB_COLUMNS_COUNT + i
      ∧ (j < cfg.NB_LINES_COUNT ∨ 256 ≤ cfg.NB_LINES_COUNT)
      ∧ (i ≤ cfg.NB_COLUMNS_COUNT ∨ 256 ≤ cfg.NB_COLUMNS_COUNT)
  | .frameEnd => cnt = f * (cfg.NB_LINES_COUNT * cfg.NB_COLUMNS_COUNT)
      + cfg.NB_LINES_COUNT * cfg.NB_COLUMNS_COUNT

/-- What holds of every state of a run on a grid of at least 256 lines:
the program point behind the line loop is not reached and `y` is an 8-bit
value. -/
def TallInv (s : State) : Prop :=
  s.loc ≠ .frameEnd ∧ s.y < 256

/-- Modelled from the spec: a colour triple (red, green, blue), the
content of one cell of the missing driver framebuffer. -/
abbrev Colour := Nat × Nat × Nat

/-- Modelled from the spec: the row-major addressing function of the
missing driver, `offset = row * COLUMNS + column`. -/
def offset (COLUMNS column row : Nat) : Nat := row * COLUMNS + column

/-- Modelled from the spec: the PixelGrid of the missing driver, a grid of
`COLUMNS × LINES` colour triples stored at their row-major offsets. -/
structure PixelGrid where
  COLUMNS : Nat
  LINES : Nat
  cells : List Colour
  deriving DecidableEq, Repr

/-- Modelled from the spec: a zero-initialised grid (all pixels black), as
the missing `setupMatrixDriver` creates it. -/
def PixelGrid.blank (COLUMNS LINES : Nat) : PixelGrid :=
  { COLUMNS := COLUMNS, LINES := LINES, cells := List.replicate (COLUMNS * LINES) (0, 0, 0) }

/-- Modelled from the spec: a grid of the missing driver holds exactly
`COLUMNS * LINES` cells. -/
def PixelGrid.WellFormed (grid : PixelGrid) : Prop :=
  grid.cells.length = grid.COLUMNS * grid.LINES

instance (grid : PixelGrid) : Decidable grid.WellFormed :=
  inferInstanceAs (Decidable (grid.cells.length = grid.COLUMNS * grid.LINES))

/-- Modelled from the spec: `set(col, row, r, g, b)` of the missing driver
writes the triple, each component an 8-bit intensity, at the given
coordinates; a write outside `[0, COLUMNS) × [0, LINES)` is silently
ignored. -/
def PixelGrid.set (grid : PixelGrid) (col row r g b : Nat) : PixelGrid :=
  if col < grid.COLUMNS ∧ row < grid.LINES then
    { grid with cells := grid.cells.set (offset grid.COLUMNS col row) (r % 256, g % 256, b % 256) }
  else grid

/-- Modelled from the spec: `get(col, row) -> (r, g, b)` of the missing
driver, the read-back of one cell by direct indexed access. -/
def PixelGrid.get (grid : PixelGrid) (col row : Nat) : Colour :=
  grid.cells.getD (offset grid.COLUMNS col row) (0, 0, 0)

/-- Modelled from the spec: the roles a buffer slot of the missing driver
can be in. -/
inductive Role where
  | Writing
  | ScanActive
  | Idle
  deriving DecidableEq, Repr

/-- Modelled from the spec: the FrameBufferPool of the missing driver for
`BUFFER_COUNT = 2`, two grids (slot A is index 0, slot B is index 1) and
the two role indices. -/
structure FrameBufferPool where
  slotA : PixelGrid
  slotB : PixelGrid
  writeIndex : Nat
  scanIndex : Nat
  deriving DecidableEq, Repr

/-- Modelled from the spec: the grid held by slot `i` of the missing
driver pool. -/
def FrameBufferPool.slot (p : FrameBufferPool) (i : Nat) : PixelGrid :=
  if i = 0 then p.slotA else p.slotB

/-- Modelled from the spec: the role of slot `i` in the missing driver
pool. -/
def FrameBufferPool.role (p : FrameBufferPool) (i : Nat) : Role :=
  if i = p.writeIndex then .Writing
  else if i = p.scanIndex then .ScanActive
  else .Idle

/-- Modelled from the spec: the pool `setupMatrixDriver` of the missing
driver creates for double buffering: zeroed grids, slot A starts Writing
and slot B starts ScanActive. -/
def FrameBufferPool.setup (COLUMNS LINES : Nat) : FrameBufferPool :=
  { slotA := PixelGrid.blank COLUMNS LINES, slotB := PixelGrid.blank COLUMNS LINES,
    writeIndex := 0, scanIndex := 1 }

/-- Modelled from the spec: the pool invariant of the missing driver for
`BUFFER_COUNT = 2`: both indices name a slot and `writeIndex ≠ scanIndex`. -/
def FrameBufferPool.Valid (p : FrameBufferPool) : Prop :=
  p.writeIndex < 2 ∧ p.scanIndex < 2 ∧ p.writeIndex ≠ p.scanIndex

instance (p : FrameBufferPool) : Decidable p.Valid :=
  inferInstanceAs (Decidable (p.writeIndex < 2 ∧ p.scanIndex < 2 ∧ p.writeIndex ≠ p.scanIndex))

/-- Modelled from the spec: the buffer of the missing driver pool that is
currently Writing. -/
def FrameBufferPool.writeBuffer (p : FrameBufferPool) : PixelGrid := p.slot p.writeIndex

/-- Modelled from the spec: the buffer of the missing driver pool that is
currently ScanActive. -/
def FrameBufferPool.scanBuffer (p : FrameBufferPool) : PixelGrid := p.slot p.scanIndex

/-- Modelled from the spec: `setPixelAt` of the missing driver writes into
the current write buffer. -/
def FrameBufferPool.setPixelAt (p : FrameBufferPool) (col row r g b : Nat) : FrameBufferPool :=
  if p.writeIndex = 0 then { p with slotA := p.slotA.set col row r g b }
  else { p with slotB := p.slotB.set col row r g b }

/-- Modelled from the spec: `rotateFramebuffer` of the missing driver with
double buffering swaps the two roles; buffer contents are not touched. -/
def FrameBufferPool.rotateFramebuffer (p : FrameBufferPool) : FrameBufferPool :=
  { p with writeIndex := p.scanIndex, scanIndex := p.writeIndex }

/-- Modelled from the spec: the arguments of one `setPixelAt` call of the
missing driver: column, row, red, green, blue. -/
abbrev PixelWrite := Nat × Nat × Nat × Nat × Nat

/-- Modelled from the spec: a sequence of `setPixelAt` calls applied to a
grid of the missing driver, first write first. -/
def PixelGrid.setAll (grid : PixelGrid) (ws : List PixelWrite) : PixelGrid :=
  ws.foldl (fun acc w => acc.set w.1 w.2.1 w.2.2.1 w.2.2.2.1 w.2.2.2.2) grid

/-- Modelled from the spec: a sequence of `setPixelAt` calls applied to
the pool of the missing driver, first write first. -/
def FrameBufferPool.setAll (p : FrameBufferPool) (ws : List PixelWrite) : FrameBufferPool :=
  ws.foldl (fun acc w => acc.setPixelAt w.1 w.2.1 w.2.2.1 w.2.2.2.1 w.2.2.2.2) p

/-! ## Basic facts about runs -/

theorem exec_add (cfg : Config) (rnd : Nat → Int) (m n : Nat) (s : State) :
    exec cfg rnd (m + n) s = exec cfg rnd n (exec cfg rnd m s) := by
  induction m generalizing s with
  | zero => simp [exec]
  | succ m ih => rw [Nat.succ_add]; simp only [exec]; exact ih _

theorem trace_add (cfg : Config) (rnd : Nat → Int) (m n : Nat) (s : State) :
    trace cfg rnd (m + n) s = trace cfg rnd m s ++ trace cfg rnd n (exec cfg rnd m s) := by
  induction m generalizing s with
  | zero => simp [exec, trace]
  | succ m ih => rw [Nat.succ_add]; simp only [exec, trace]; rw [ih]; simp

theorem exec_succ (cfg : Config) (rnd : Nat → Int) (n : Nat) (s : State) :
    exec cfg rnd (n + 1) s = (step cfg rnd (exec cfg rnd n s)).1 := by
  rw [exec_add]; rfl

theorem trace_succ (cfg : Config) (rnd : Nat → Int) (n : Nat) (s : State) :
    trace cfg rnd (n + 1) s
      = trace cfg rnd n s ++ (step cfg rnd (exec cfg rnd n s)).2.toList := by
  rw [trace_add]; simp [trace]

/-- A property kept by every step holds along the whole run. -/
theorem exec_invariant (cfg : Config) (rnd : Nat → Int) (Inv : State → Prop)
    (hstep : ∀ s, Inv s → Inv (step cfg rnd s).1) :
    ∀ n s, Inv s → Inv (exec cfg rnd n s) := by
  intro n
  induction n with
  | zero => intro s h; exact h
  | succ n ih => intro s h; exact ih _ (hstep s h)

/-- Calls issued from states satisfying an invariant inherit what the
invariant guarantees for a single step. -/
theorem trace_invariant (cfg : Config) (rnd : Nat → Int) (Inv : State → Prop)
    (P : Call → Prop)
    (hstep : ∀ s, Inv s → Inv (step cfg rnd s).1)
    (hcall : ∀ s c, Inv s → (step cfg rnd s).2 = some c → P c) :
    ∀ n s, Inv s → ∀ c ∈ trace cfg rnd n s, P c := by
  intro n
  induction n with
  | zero => intro s _ c hc; simp [trace] at hc
  | succ n ih =>
    intro s h c hc
    simp only [trace, List.mem_append] at hc
    rcases hc with hc | hc
    · cases hopt : (step cfg rnd s).2 with
      | none => rw [hopt] at hc; simp at hc
      | some d =>
        rw [hopt] at hc
        simp at hc
        subst hc
        exact hcall s _ h hopt
    · exact ih _ (hstep s h) c hc

/-! ## Properties of `main` -/

/-- C1: every `setPixelAt` call issued by `main` has a column below
`NB_COLUMNS_COUNT` and a row below `NB_LINES_COUNT`; this holds in every
configuration, in particular when both dimensions are at most 255. -/
theorem main_setPixelAt_in_range (cfg : Config) (rnd : Nat → Int) (n : Nat)
    (x y : Nat) (r g b : Int)
    (hc : Call.setPixelAt x y r g b ∈ trace cfg rnd n init) :
    x < cfg.NB_COLUMNS_COUNT ∧ y < cfg.NB_LINES_COUNT := by
  have key := trace_invariant cfg rnd
    (fun s => s.loc = .xTest → s.y < cfg.NB_LINES_COUNT)
    (fun c => ∀ x y r g b, c = Call.setPixelAt x y r g b →
      x < cfg.NB_COLUMNS_COUNT ∧ y < cfg.NB_LINES_COUNT)
    (by
      rintro ⟨loc, xx, x, y, rc⟩ h
      cases loc <;> simp [step] at h ⊢ <;> split <;> simp_all)
    (by
      rintro ⟨loc, xx, x, y, rc⟩ c h hs
      cases loc <;> simp [step] at h hs ⊢
      · subst hs; simp
      · split at hs <;> simp at hs
      · split at hs <;> simp at hs
        subst hs
        intro x' y' r' g' b' hx
        cases hx
        constructor <;> assumption
      · obtain ⟨_, hs⟩ := hs
        subst hs; simp)
    n init (by simp [init])
  exact key _ hc x y r g b rfl

/-- Witness of C1 on a 3 × 2 grid: the pixel at column 2, row 1 is drawn
within 12 steps. -/
theorem main_setPixelAt_in_range_witness :
    Call.setPixelAt 2 1 5 0 0 ∈ trace ⟨3, 2, false, false⟩ (fun _ => 0) 12 init
      ∧ (2 < 3 ∧ 1 < 2) :=
  ⟨by decide, main_setPixelAt_in_range ⟨3, 2, false, false⟩ (fun _ => 0) 12 2 1 5 0 0 (by decide)⟩

/-- C5: in every run of `main` the first call is `setupMatrixDriver`, and it
is the only call of `setupMatrixDriver`: nothing is called before it (the
empty run has issued no call) and the main loop never repeats it. -/
theorem main_setup_once_and_first (cfg : Config) (rnd : Nat → Int) (n : Nat) :
    trace cfg rnd 0 init = [] ∧
    (∃ rest, trace cfg rnd (n + 1) init = Call.setupMatrixDriver :: rest
      ∧ Call.setupMatrixDriver ∉ rest) ∧
    (trace cfg rnd (n + 1) init).count Call.setupMatrixDriver = 1 := by
  have hrest : Call.setupMatrixDriver ∉ trace cfg rnd n (step cfg rnd init).1 := by
    intro hmem
    have key := trace_invariant cfg rnd (fun s => s.loc ≠ .entry)
      (fun c => c ≠ Call.setupMatrixDriver)
      (by
        rintro ⟨loc, xx, x, y, rc⟩ h
        cases loc <;> simp [step] at h ⊢ <;> split <;> simp)
      (by
        rintro ⟨loc, xx, x, y, rc⟩ c h hs
        cases loc <;> simp [step] at h hs ⊢
        · split at hs <;> simp at hs
        · split at hs <;> simp at hs
          subst hs; simp
        · obtain ⟨_, hs⟩ := hs
          subst hs; simp)
      n (step cfg rnd init).1 (by simp [step, init])
    exact key _ hmem rfl
  have hhead : trace cfg rnd (n + 1) init
      = Call.setupMatrixDriver :: trace cfg rnd n (step cfg rnd init).1 := by
    simp [trace, step, init]
  refine ⟨rfl, ⟨_, hhead, hrest⟩, ?_⟩
  rw [hhead, List.count_cons_self, List.count_eq_zero_of_not_mem hrest]

theorem offset_mod (C i j : Nat) (h : i < C) : (j * C + i) % C = i := by
  rw [Nat.add_comm, Nat.add_mul_mod_self_right, Nat.mod_eq_of_lt h]

theorem offset_div (C i j : Nat) (h : i < C) : (j * C + i) / C = j := by
  rw [Nat.add_comm, Nat.add_mul_div_right _ _ (by omega), Nat.div_eq_of_lt h, Nat.zero_add]

/-- The column loop from column `i` of row `j`: its first `d` turns draw
the pixels of columns `i` to `i + d - 1`, as long as these exist. -/
theorem inner_loop (cfg : Config) (rnd : Nat → Int) (xx0 : Int) (rc0 : Nat)
    (hC : cfg.NB_COLUMNS_COUNT ≤ 255) :
    ∀ (d : Nat) (s : State) (i j : Nat), s.loc = .xTest → s.x = i → s.y = j →
      i + d ≤ cfg.NB_COLUMNS_COUNT →
      s.xx = incInt16^[j * cfg.NB_COLUMNS_COUNT + i] xx0 →
      s.randCalls = rc0 + 2 * (j * cfg.NB_COLUMNS_COUNT + i) →
      exec cfg rnd d s =
        { loc := .xTest, xx := incInt16^[j * cfg.NB_COLUMNS_COUNT + (i + d)] xx0,
          x := i + d, y := j,
          randCalls := rc0 + 2 * (j * cfg.NB_COLUMNS_COUNT + (i + d)) }
      ∧ trace cfg rnd d s =
        (List.range' (j * cfg.NB_COLUMNS_COUNT + i) d).map
          (passCall rnd cfg.NB_COLUMNS_COUNT xx0 rc0) := by
  intro d
  induction d with
  | zero =>
    rintro ⟨loc, xx, x, y, rc⟩ i j hloc hx hy hid hxx hrc
    simp only at hloc hx hy hxx hrc
    subst hloc hx hy hxx hrc
    simp [exec, trace]
  | succ d ih =>
    rintro ⟨loc, xx, x, y, rc⟩ i j hloc hx hy hid hxx hrc
    simp only at hloc hx hy hxx hrc
    have hlt : i < cfg.NB_COLUMNS_COUNT := by omega
    subst hloc hx hy hxx hrc
    have hinc : incU8 x = x + 1 := by unfold incU8; omega
    obtain ⟨ih1, ih2⟩ := ih
      { loc := .xTest, xx := incInt16 (incInt16^[y * cfg.NB_COLUMNS_COUNT + x] xx0),
        x := x + 1, y := y,
        randCalls := rc0 + 2 * (y * cfg.NB_COLUMNS_COUNT + x) + 2 } (x + 1) y rfl rfl rfl
      (by omega)
      (by
        show _ = incInt16^[(y * cfg.NB_COLUMNS_COUNT + x) + 1] xx0
        rw [Function.iterate_succ_apply'])
      (by simp only; omega)
    have e : x + 1 + d = x + (d + 1) := by omega
    rw [e] at ih1
    constructor
    · simp only [exec, step, hlt, if_true, hinc]
      exact ih1
    · simp only [trace, step, hlt, if_true, hinc, Option.toList]
      rw [ih2, List.range'_succ, List.map_cons]
      simp [passCall, offset_mod _ _ _ hlt, offset_div _ _ _ hlt, Nat.add_assoc]

/-- One turn of the line loop on row `j`: the test `y < NB_LINES_COUNT`
succeeds, the row is drawn left to right, and `y` is incremented. -/
theorem row_loop (cfg : Config) (rnd : Nat → Int) (xx0 : Int) (rc0 : Nat)
    (hC : cfg.NB_COLUMNS_COUNT ≤ 255) (hL : cfg.NB_LINES_COUNT ≤ 255)
    (s : State) (j : Nat) (hloc : s.loc = .yTest) (hy : s.y = j)
    (hj : j < cfg.NB_LINES_COUNT)
    (hxx : s.xx = incInt16^[j * cfg.NB_COLUMNS_COUNT] xx0)
    (hrc : s.randCalls = rc0 + 2 * (j * cfg.NB_COLUMNS_COUNT)) :
    exec cfg rnd (cfg.NB_COLUMNS_COUNT + 2) s =
        { loc := .yTest, xx := incInt16^[(j + 1) * cfg.NB_COLUMNS_COUNT] xx0,
          x := cfg.NB_COLUMNS_COUNT, y := j + 1,
          randCalls := rc0 + 2 * ((j + 1) * cfg.NB_COLUMNS_COUNT) }
      ∧ trace cfg rnd (cfg.NB_COLUMNS_COUNT + 2) s =
        (List.range' (j * cfg.NB_COLUMNS_COUNT) cfg.NB_COLUMNS_COUNT).map
          (passCall rnd cfg.NB_COLUMNS_COUNT xx0 rc0) := by
  obtain ⟨loc, xx, x, y, rc⟩ := s
  simp only at hloc hy hxx hrc
  subst hloc hy hxx hrc
  have hsplit : cfg.NB_COLUMNS_COUNT + 2 = 1 + (cfg.NB_COLUMNS_COUNT + 1) := by omega
  obtain ⟨h1, h2⟩ := inner_loop cfg rnd xx0 rc0 hC cfg.NB_COLUMNS_COUNT
    { loc := .xTest, xx := incInt16^[y * cfg.NB_COLUMNS_COUNT] xx0, x := 0, y := y,
      randCalls := rc0 + 2 * (y * cfg.NB_COLUMNS_COUNT) } 0 y rfl rfl rfl (by omega)
    (by simp) (by simp)
  rw [Nat.zero_add] at h1
  have hfirst : step cfg rnd
      { loc := .yTest, xx := incInt16^[y * cfg.NB_COLUMNS_COUNT] xx0, x := x, y := y,
        randCalls := rc0 + 2 * (y * cfg.NB_COLUMNS_COUNT) }
      = (⟨.xTest, incInt16^[y * cfg.NB_COLUMNS_COUNT] xx0, 0, y,
        rc0 + 2 * (y * cfg.NB_COLUMNS_COUNT)⟩, none) := by
    simp [step, hj]
  have hinc : incU8 y = y + 1 := by unfold incU8; omega
  have hmul : y * cfg.NB_COLUMNS_COUNT + cfg.NB_COLUMNS_COUNT
      = (y + 1) * cfg.NB_COLUMNS_COUNT := by rw [Nat.add_mul, Nat.one_mul]
  constructor
  · rw [hsplit, exec_add, exec_add]
    simp only [exec, hfirst]
    rw [h1]
    simp [step, hinc, hmul]
  · rw [hsplit, trace_add, trace_add]
    simp only [exec, trace, hfirst]
    rw [h1, h2]
    simp [step]

/-- The line loop from row `j` on: the remaining `d` rows are drawn one
after the other. -/
theorem line_loop (cfg : Config) (rnd : Nat → Int) (xx0 : Int) (rc0 : Nat)
    (hC : cfg.NB_COLUMNS_COUNT ≤ 255) (hL : cfg.NB_LINES_COUNT ≤ 255) :
    ∀ (d : Nat) (s : State) (j : Nat), s.loc = .yTest → s.y = j →
      j + d = cfg.NB_LINES_COUNT →
      s.xx = incInt16^[j * cfg.NB_COLUMNS_COUNT] xx0 →
      s.randCalls = rc0 + 2 * (j * cfg.NB_COLUMNS_COUNT) →
      (exec cfg rnd (d * (cfg.NB_COLUMNS_COUNT + 2)) s).loc = .yTest
      ∧ (exec cfg rnd (d * (cfg.NB_COLUMNS_COUNT + 2)) s).y = cfg.NB_LINES_COUNT
      ∧ (exec cfg rnd (d * (cfg.NB_COLUMNS_COUNT + 2)) s).xx
          = incInt16^[cfg.NB_LINES_COUNT * cfg.NB_COLUMNS_COUNT] xx0
      ∧ (exec cfg rnd (d * (cfg.NB_COLUMNS_COUNT + 2)) s).randCalls
          = rc0 + 2 * (cfg.NB_LINES_COUNT * cfg.NB_COLUMNS_COUNT)
      ∧ trace cfg rnd (d * (cfg.NB_COLUMNS_COUNT + 2)) s =
        (List.range' (j * cfg.NB_COLUMNS_COUNT) (d * cfg.NB_COLUMNS_COUNT)).map
          (passCall rnd cfg.NB_COLUMNS_COUNT xx0 rc0) := by
  intro d
  induction d with
  | zero =>
    intro s j hloc hy hjd hxx hrc
    have : j = cfg.NB_LINES_COUNT := by omega
    subst this
    simp [exec, trace, hloc, hy, hxx, hrc]
  | succ d ih =>
    intro s j hloc hy hjd hxx hrc
    obtain ⟨h1, h2⟩ := row_loop cfg rnd xx0 rc0 hC hL s j hloc hy (by omega) hxx hrc
    have hsplit : (d + 1) * (cfg.NB_COLUMNS_COUNT + 2)
        = (cfg.NB_COLUMNS_COUNT + 2) + d * (cfg.NB_COLUMNS_COUNT + 2) := by
      rw [Nat.add_mul, Nat.one_mul, Nat.add_comm]
    obtain ⟨i1, i2, i3, i4, i5⟩ := ih
      (exec cfg rnd (cfg.NB_COLUMNS_COUNT + 2) s) (j + 1)
      (by rw [h1]) (by rw [h1]) (by omega) (by rw [h1]) (by rw [h1])
    rw [hsplit, exec_add, trace_add]
    refine ⟨i1, i2, i3, i4, ?_⟩
    rw [h2, i5, ← List.map_append]
    congr 1
    have e1 : (j + 1) * cfg.NB_COLUMNS_COUNT
        = j * cfg.NB_COLUMNS_COUNT + cfg.NB_COLUMNS_COUNT := by
      rw [Nat.add_mul, Nat.one_mul]
    have e2 : (d + 1) * cfg.NB_COLUMNS_COUNT
        = d * cfg.NB_COLUMNS_COUNT + cfg.NB_COLUMNS_COUNT := by
      rw [Nat.add_mul, Nat.one_mul]
    rw [e1, e2, List.range'_append_1]

/-- While a row is drawn the program stays inside the two loops. -/
theorem row_loop_loc (cfg : Config) (rnd : Nat → Int) (xx0 : Int) (rc0 : Nat)
    (hC : cfg.NB_COLUMNS_COUNT ≤ 255) (hL : cfg.NB_LINES_COUNT ≤ 255)
    (s : State) (j : Nat) (hloc : s.loc = .yTest) (hy : s.y = j)
    (hj : j < cfg.NB_LINES_COUNT)
    (hxx : s.xx = incInt16^[j * cfg.NB_COLUMNS_COUNT] xx0)
    (hrc : s.randCalls = rc0 + 2 * (j * cfg.NB_COLUMNS_COUNT))
    (m : Nat) (hm : m ≤ cfg.NB_COLUMNS_COUNT + 2) :
    (exec cfg rnd m s).loc = .yTest ∨ (exec cfg rnd m s).loc = .xTest := by
  rcases Nat.eq_zero_or_pos m with h0 | hpos
  · subst h0; left; exact hloc
  · by_cases hlast : m = cfg.NB_COLUMNS_COUNT + 2
    · left
      rw [hlast, (row_loop cfg rnd xx0 rc0 hC hL s j hloc hy hj hxx hrc).1]
    · right
      obtain ⟨m', rfl⟩ : ∃ m', m = 1 + m' := ⟨m - 1, by omega⟩
      obtain ⟨loc, xx, x, y, rc⟩ := s
      simp only at hloc hy hxx hrc
      subst hloc hy hxx hrc
      rw [exec_add]
      have hfirst : exec cfg rnd 1
          { loc := .yTest, xx := incInt16^[y * cfg.NB_COLUMNS_COUNT] xx0, x := x, y := y,
            randCalls := rc0 + 2 * (y * cfg.NB_COLUMNS_COUNT) }
          = ⟨.xTest, incInt16^[y * cfg.NB_COLUMNS_COUNT] xx0, 0, y,
            rc0 + 2 * (y * cfg.NB_COLUMNS_COUNT)⟩ := by
        simp [exec, step, hj]
      rw [hfirst, (inner_loop cfg rnd xx0 rc0 hC m' _ 0 y rfl rfl rfl (by omega)
        (by simp) (by simp)).1]

/-- While the remaining rows are drawn the program stays inside the two
loops. -/
theorem line_loop_loc (cfg : Config) (rnd : Nat → Int) (xx0 : Int) (rc0 : Nat)
    (hC : cfg.NB_COLUMNS_COUNT ≤ 255) (hL : cfg.NB_LINES_COUNT ≤ 255) :
    ∀ (d : Nat) (s : State) (j : Nat), s.loc = .yTest → s.y = j →
      j + d = cfg.NB_LINES_COUNT →
      s.xx = incInt16^[j * cfg.NB_COLUMNS_COUNT] xx0 →
      s.randCalls = rc0 + 2 * (j * cfg.NB_COLUMNS_COUNT) →
      ∀ m, m ≤ d * (cfg.NB_COLUMNS_COUNT + 2) →
        (exec cfg rnd m s).loc = .yTest ∨ (exec cfg rnd m s).loc = .xTest := by
  intro d
  induction d with
  | zero =>
    intro s j hloc _ _ _ _ m hm
    have : m = 0 := by omega
    subst this; left; exact hloc
  | succ d ih =>
    intro s j hloc hy hjd hxx hrc m hm
    have hsplit : (d + 1) * (cfg.NB_COLUMNS_COUNT + 2)
        = (cfg.NB_COLUMNS_COUNT + 2) + d * (cfg.NB_COLUMNS_COUNT + 2) := by
      rw [Nat.add_mul, Nat.one_mul, Nat.add_comm]
    rw [hsplit] at hm
    by_cases hfirst : m ≤ cfg.NB_COLUMNS_COUNT + 2
    · exact row_loop_loc cfg rnd xx0 rc0 hC hL s j hloc hy (by omega) hxx hrc m hfirst
    · obtain ⟨m', rfl⟩ : ∃ m', m = (cfg.NB_COLUMNS_COUNT + 2) + m' :=
        ⟨m - (cfg.NB_COLUMNS_COUNT + 2), by omega⟩
      obtain ⟨h1, _⟩ := row_loop cfg rnd xx0 rc0 hC hL s j hloc hy (by omega) hxx hrc
      rw [exec_add]
      exact ih (exec cfg rnd (cfg.NB_COLUMNS_COUNT + 2) s) (j + 1)
        (by rw [h1]) (by rw [h1]) (by omega) (by rw [h1]) (by rw [h1]) m' (by omega)

theorem step_loopTop (cfg : Config) (rnd : Nat → Int) (s : State) (h : s.loc = .loopTop) :
    step cfg rnd s = ({ s with loc := .yTest, y := 0 }, none) := by
  obtain ⟨loc, xx, x, y, rc⟩ := s
  simp only at h; subst h; rfl

theorem step_yTest_exit (cfg : Config) (rnd : Nat → Int) (s : State) (h : s.loc = .yTest)
    (hy : ¬ s.y < cfg.NB_LINES_COUNT) :
    step cfg rnd s = ({ s with loc := .frameEnd }, none) := by
  obtain ⟨loc, xx, x, y, rc⟩ := s
  simp only at h hy; subst h; simp [step, hy]

theorem step_frameEnd (cfg : Config) (rnd : Nat → Int) (s : State) (h : s.loc = .frameEnd) :
    step cfg rnd s = ({ s with loc := .loopTop },
      if cfg.rotates then some Call.rotateFramebuffer else none) := by
  obtain ⟨loc, xx, x, y, rc⟩ := s
  simp only at h; subst h; rfl

/-- The drawing pass of one iteration of `for(;;)` on a grid whose
dimensions fit the 8-bit counters: it ends after `passSteps` steps at the
program point behind the line loop, having issued the pixel writes
`passCall 0`, ..., `passCall (LINES * COLUMNS - 1)` and nothing else. -/
theorem pass_run (cfg : Config) (rnd : Nat → Int)
    (hC : cfg.NB_COLUMNS_COUNT ≤ 255) (hL : cfg.NB_LINES_COUNT ≤ 255)
    (s : State) (hs : s.loc = .loopTop) :
    (exec cfg rnd (passSteps cfg) s).loc = .frameEnd
    ∧ (exec cfg rnd (passSteps cfg) s).xx
        = incInt16^[cfg.NB_LINES_COUNT * cfg.NB_COLUMNS_COUNT] s.xx
    ∧ (exec cfg rnd (passSteps cfg) s).randCalls
        = s.randCalls + 2 * (cfg.NB_LINES_COUNT * cfg.NB_COLUMNS_COUNT)
    ∧ trace cfg rnd (passSteps cfg) s
        = (List.range (cfg.NB_LINES_COUNT * cfg.NB_COLUMNS_COUNT)).map
            (passCall rnd cfg.NB_COLUMNS_COUNT s.xx s.randCalls)
    ∧ ∀ m, 0 < m → m < passSteps cfg →
        (exec cfg rnd m s).loc = .yTest ∨ (exec cfg rnd m s).loc = .xTest := by
  have hsplit : passSteps cfg
      = 1 + (cfg.NB_LINES_COUNT * (cfg.NB_COLUMNS_COUNT + 2) + 1) := by
    unfold passSteps; omega
  have h1 : exec cfg rnd 1 s = { s with loc := .yTest, y := 0 } := by
    simp [exec, step_loopTop cfg rnd s hs]
  have t1 : trace cfg rnd 1 s = [] := by
    simp [trace, step_loopTop cfg rnd s hs]
  obtain ⟨l1, l2, l3, l4, l5⟩ := line_loop cfg rnd s.xx s.randCalls hC hL
    cfg.NB_LINES_COUNT { s with loc := .yTest, y := 0 } 0 rfl rfl (by omega)
    (by simp) (by simp)
  have hloc := line_loop_loc cfg rnd s.xx s.randCalls hC hL
    cfg.NB_LINES_COUNT { s with loc := .yTest, y := 0 } 0 rfl rfl (by omega)
    (by simp) (by simp)
  have hlast := step_yTest_exit cfg rnd _ l1 (by rw [l2]; omega)
  refine ⟨?_, ?_, ?_, ?_, ?_⟩
  · rw [hsplit, exec_add, exec_add, h1]; simp [exec, hlast]
  · rw [hsplit, exec_add, exec_add, h1]; simp [exec, hlast, l3]
  · rw [hsplit, exec_add, exec_add, h1]; simp [exec, hlast, l4]
  · rw [hsplit, trace_add, trace_add, h1, t1, l5]
    simp [trace, hlast, List.range_eq_range']
  · intro m hpos hlt
    obtain ⟨m', rfl⟩ : ∃ m', m = 1 + m' := ⟨m - 1, by omega⟩
    rw [exec_add, h1]
    exact hloc m' (by omega)

/-- One iteration of `for(;;)` on a grid whose dimensions fit the 8-bit
counters: the drawing pass, then the calls of the frame end, then the top
of the loop again, which is not visited in between. -/
theorem frame_run (cfg : Config) (rnd : Nat → Int)
    (hC : cfg.NB_COLUMNS_COUNT ≤ 255) (hL : cfg.NB_LINES_COUNT ≤ 255)
    (s : State) (hs : s.loc = .loopTop) :
    (exec cfg rnd (frameSteps cfg) s).loc = .loopTop
    ∧ (exec cfg rnd (frameSteps cfg) s).xx
        = incInt16^[cfg.NB_LINES_COUNT * cfg.NB_COLUMNS_COUNT] s.xx
    ∧ (exec cfg rnd (frameSteps cfg) s).randCalls
        = s.randCalls + 2 * (cfg.NB_LINES_COUNT * cfg.NB_COLUMNS_COUNT)
    ∧ trace cfg rnd (frameSteps cfg) s
        = (List.range (cfg.NB_LINES_COUNT * cfg.NB_COLUMNS_COUNT)).map
            (passCall rnd cfg.NB_COLUMNS_COUNT s.xx s.randCalls) ++ frameEndCalls cfg
    ∧ ∀ m, 0 < m → m < frameSteps cfg → (exec cfg rnd m s).loc ≠ .loopTop := by
  obtain ⟨p1, p2, p3, p4, p5⟩ := pass_run cfg rnd hC hL s hs
  have hlast := step_frameEnd cfg rnd _ p1
  unfold frameSteps
  refine ⟨?_, ?_, ?_, ?_, ?_⟩
  · rw [exec_add]; show (step cfg rnd _).1.loc = _; rw [hlast]
  · rw [exec_add]; show (step cfg rnd _).1.xx = _; rw [hlast]; exact p2
  · rw [exec_add]; show (step cfg rnd _).1.randCalls = _; rw [hlast]; exact p3
  · rw [trace_add, p4]
    show _ ++ ((step cfg rnd _).2.toList ++ []) = _
    rw [hlast]
    simp only [List.append_nil, frameEndCalls]
    cases cfg.rotates <;> simp
  · intro m hpos hlt
    by_cases hm : m < passSteps cfg
    · rcases p5 m hpos hm with h | h <;> rw [h] <;> simp
    · have : m = passSteps cfg := by omega
      rw [this, p1]; simp

theorem mem_passCall_isSetPixel (rnd : Nat → Int) (C : Nat) (xx0 : Int) (rc0 n : Nat) :
    ∀ c ∈ (List.range n).map (passCall rnd C xx0 rc0), c.isSetPixel = true := by
  intro c hc
  simp only [List.mem_map] at hc
  obtain ⟨k, _, rfl⟩ := hc
  rfl

theorem coords_passCall (rnd : Nat → Int) (C : Nat) (xx0 : Int) (rc0 n : Nat) :
    ((List.range n).map (passCall rnd C xx0 rc0)).map Call.coords
      = (List.range n).map (fun k => some (k % C, k / C)) := by
  rw [List.map_map]; rfl

theorem rowMajor_injective (C : Nat) (k k' : Nat)
    (h : (some (k % C, k / C) : Option (Nat × Nat)) = some (k' % C, k' / C)) : k = k' := by
  simp only [Option.some.injEq, Prod.mk.injEq] at h
  rw [← Nat.div_add_mod k C, ← Nat.div_add_mod k' C, h.1, h.2]

/-- C2: on a grid with at most 255 columns and 255 lines, the drawing pass
of an iteration of the main loop ends (after `passSteps` steps and not
before) with exactly `NB_LINES_COUNT * NB_COLUMNS_COUNT` calls issued, all
of them `setPixelAt`; the `k`-th has coordinates
`(k mod NB_COLUMNS_COUNT, k div NB_COLUMNS_COUNT)`, and every valid
coordinate is written exactly once. -/
theorem main_pass_row_major (cfg : Config) (rnd : Nat → Int)
    (hC : cfg.NB_COLUMNS_COUNT ≤ 255) (hL : cfg.NB_LINES_COUNT ≤ 255)
    (s : State) (hs : s.loc = .loopTop) :
    (exec cfg rnd (passSteps cfg) s).loc = .frameEnd
    ∧ (∀ m, m < passSteps cfg → (exec cfg rnd m s).loc ≠ .frameEnd)
    ∧ (trace cfg rnd (passSteps cfg) s).length = cfg.NB_LINES_COUNT * cfg.NB_COLUMNS_COUNT
    ∧ (∀ c ∈ trace cfg rnd (passSteps cfg) s, c.isSetPixel = true)
    ∧ (trace cfg rnd (passSteps cfg) s).map Call.coords
        = (List.range (cfg.NB_LINES_COUNT * cfg.NB_COLUMNS_COUNT)).map
            (fun k => some (k % cfg.NB_COLUMNS_COUNT, k / cfg.NB_COLUMNS_COUNT))
    ∧ (∀ x y, x < cfg.NB_COLUMNS_COUNT → y < cfg.NB_LINES_COUNT →
        ∃! k : Nat,
          ((trace cfg rnd (passSteps cfg) s).map Call.coords)[k]? = some (some (x, y))) := by
  obtain ⟨p1, _, _, p4, p5⟩ := pass_run cfg rnd hC hL s hs
  refine ⟨p1, ?_, ?_, ?_, ?_, ?_⟩
  · intro m hm
    rcases Nat.eq_zero_or_pos m with h0 | hpos
    · subst h0; simp [exec, hs]
    · rcases p5 m hpos hm with h | h <;> rw [h] <;> simp
  · rw [p4]; simp
  · rw [p4]; exact mem_passCall_isSetPixel _ _ _ _ _
  · rw [p4]; exact coords_passCall _ _ _ _ _
  · intro x y hx hy
    rw [p4, coords_passCall]
    have hk : y * cfg.NB_COLUMNS_COUNT + x < cfg.NB_LINES_COUNT * cfg.NB_COLUMNS_COUNT :=
      calc y * cfg.NB_COLUMNS_COUNT + x
          < y * cfg.NB_COLUMNS_COUNT + cfg.NB_COLUMNS_COUNT := by omega
        _ = (y + 1) * cfg.NB_COLUMNS_COUNT := by rw [Nat.add_mul, Nat.one_mul]
        _ ≤ cfg.NB_LINES_COUNT * cfg.NB_COLUMNS_COUNT := Nat.mul_le_mul_right _ hy
    refine ⟨y * cfg.NB_COLUMNS_COUNT + x, ?_, ?_⟩
    · simp [List.getElem?_map, List.getElem?_range hk, offset_mod _ _ _ hx,
        offset_div _ _ _ hx]
    · intro k' hk'
      simp only [List.getElem?_map, Option.map_eq_some'] at hk'
      obtain ⟨k'', hget, hval⟩ := hk'
      have hmem := List.getElem?_eq_some_iff.mp hget
      obtain ⟨hlt, heq⟩ := hmem
      simp only [List.getElem_range] at heq
      subst heq
      apply rowMajor_injective cfg.NB_COLUMNS_COUNT
      rw [hval, offset_mod _ _ _ hx, offset_div _ _ _ hx]

/-- Witness of C2: the first drawing pass on a 3 × 2 grid. -/
theorem main_pass_row_major_witness :
    (exec ⟨3, 2, true, false⟩ (fun _ => 0) 1 init).loc = .loopTop
    ∧ (trace ⟨3, 2, true, false⟩ (fun _ => 0) (passSteps ⟨3, 2, true, false⟩)
        (exec ⟨3, 2, true, false⟩ (fun _ => 0) 1 init)).map Call.coords
      = [some (0, 0), some (1, 0), some (2, 0), some (0, 1), some (1, 1), some (2, 1)] :=
  ⟨by decide,
    (main_pass_row_major ⟨3, 2, true, false⟩ (fun _ => 0) (by decide) (by decide)
      (exec ⟨3, 2, true, false⟩ (fun _ => 0) 1 init) (by decide)).2.2.2.2.1.trans (by decide)⟩

/-! ## Grids beyond the 8-bit counters, and the rotation at the frame end -/

theorem wideInv_step (cfg : Config) (rnd : Nat → Int)
    (hC : 256 ≤ cfg.NB_COLUMNS_COUNT) (hL : 1 ≤ cfg.NB_LINES_COUNT) :
    ∀ s, WideInv s → WideInv (step cfg rnd s).1 := by
  rintro ⟨loc, xx, x, y, rc⟩ ⟨h1, h2, h3⟩
  cases loc
  · simp [WideInv, step]
  · simp [WideInv, step]
  · have hy : y = 0 := h2 (Or.inl rfl)
    have : 0 < cfg.NB_LINES_COUNT := by omega
    simp [WideInv, step, this, hy]
  · have hx : x < 256 := h3 rfl
    have hy : y = 0 := h2 (Or.inr rfl)
    have : x < cfg.NB_COLUMNS_COUNT := by omega
    simp only [WideInv, step, this, if_true]
    refine ⟨by simp, fun _ => hy, fun _ => ?_⟩
    unfold incU8; omega
  · exact absurd rfl h1

theorem wideInv_call (cfg : Config) (rnd : Nat → Int) :
    ∀ s c, WideInv s → (step cfg rnd s).2 = some c →
      c ≠ Call.rotateFramebuffer ∧ ∀ x y r g b, c = Call.setPixelAt x y r g b → y = 0 := by
  rintro ⟨loc, xx, x, y, rc⟩ c ⟨h1, h2, h3⟩ hs
  cases loc
  · simp [step] at hs; subst hs; simp
  · simp [step] at hs
  · simp only [step] at hs
    split at hs <;> simp at hs
  · have hy : y = 0 := h2 (Or.inr rfl)
    simp only [step] at hs
    split at hs
    · simp at hs; subst hs
      refine ⟨by simp, ?_⟩
      intro x' y' r' g' b' h
      cases h
      exact hy
    · simp at hs
  · exact absurd rfl h1

/-- A run on a grid of at least 256 columns and at least one line: after
the three steps that lead into the column loop, every further step draws
one more pixel of row 0. -/
theorem wide_run (cfg : Config) (rnd : Nat → Int)
    (hC : 256 ≤ cfg.NB_COLUMNS_COUNT) (hL : 1 ≤ cfg.NB_LINES_COUNT) (n : Nat) :
    exec cfg rnd (n + 3) init = ⟨.xTest, wrapInt16 n, n % 256, 0, 2 * n⟩
    ∧ trace cfg rnd (n + 3) init
        = Call.setupMatrixDriver :: (List.range n).map (row0Call rnd) := by
  induction n with
  | zero =>
    have : 0 < cfg.NB_LINES_COUNT := by omega
    constructor
    · simp [exec, step, init, this, wrapInt16]
    · simp [trace, step, init, this]
  | succ n ih =>
    obtain ⟨ih1, ih2⟩ := ih
    have hlt : n % 256 < cfg.NB_COLUMNS_COUNT := by omega
    have e : n + 1 + 3 = (n + 3) + 1 := by omega
    have hstep : step cfg rnd ⟨.xTest, wrapInt16 n, n % 256, 0, 2 * n⟩
        = (⟨.xTest, wrapInt16 (n + 1 : Nat), (n + 1) % 256, 0, 2 * (n + 1)⟩,
            some (row0Call rnd n)) := by
      have h1 : incInt16 (wrapInt16 n) = wrapInt16 ((n + 1 : Nat) : Int) := by
        unfold incInt16 wrapInt16; push_cast; omega
      have h2 : incU8 (n % 256) = (n + 1) % 256 := by unfold incU8; omega
      have h3 : 2 * n + 2 = 2 * (n + 1) := by omega
      simp only [step, hlt, if_true, row0Call, h1, h2, h3]
    constructor
    · rw [e, exec_succ, ih1, hstep]
    · rw [e, trace_succ, ih1, ih2, hstep, List.range_succ, List.map_append]
      simp

/-- C4 fails as stated: with `USE_DOUBLE_BUFFERING` on a grid of 256
columns and one line, the first iteration of the main loop never calls
`rotateFramebuffer`. -/
theorem rotation_contract_fails_on_wide_grid :
    ¬ RotationContract ⟨256, 1, true, false⟩ := by
  intro h
  obtain ⟨n, pixels, _, _, _, htr, _⟩ := h.1 rfl (fun _ => 0) 1 rfl
  have hmem : Call.rotateFramebuffer
      ∈ trace ⟨256, 1, true, false⟩ (fun _ => 0) n (exec ⟨256, 1, true, false⟩ (fun _ => 0) 1 init) := by
    rw [htr]; simp
  have key := trace_invariant ⟨256, 1, true, false⟩ (fun _ => 0) WideInv
    (fun c => c ≠ Call.rotateFramebuffer ∧ ∀ x y r g b, c = Call.setPixelAt x y r g b → y = 0)
    (wideInv_step _ _ (Nat.le_refl 256) (Nat.le_refl 1))
    (wideInv_call _ _)
    n (exec ⟨256, 1, true, false⟩ (fun _ => 0) 1 init)
    (by simp [WideInv, exec, step, init])
  exact (key _ hmem).1 rfl

/-- C4, amended: in a build with `USE_DOUBLE_BUFFERING` or
`USE_TRIPLE_BUFFERING` whose grid has at most 255 columns and 255 lines,
every iteration of the main loop issues its pixel writes and then exactly
one `rotateFramebuffer`, before the next iteration starts; in a build with
neither macro `main` never calls `rotateFramebuffer`. -/
theorem main_rotation_after_pass (cfg : Config) :
    (cfg.rotates = true → cfg.NB_COLUMNS_COUNT ≤ 255 → cfg.NB_LINES_COUNT ≤ 255 →
      IterationRotatesOnce cfg)
    ∧ (cfg.rotates = false → NeverRotates cfg) := by
  constructor
  · intro hrot hC hL rnd t ht
    obtain ⟨f1, _, _, f4, f5⟩ := frame_run cfg rnd hC hL (exec cfg rnd t init) ht
    refine ⟨frameSteps cfg,
      (List.range (cfg.NB_LINES_COUNT * cfg.NB_COLUMNS_COUNT)).map
        (passCall rnd cfg.NB_COLUMNS_COUNT (exec cfg rnd t init).xx
          (exec cfg rnd t init).randCalls),
      by unfold frameSteps; omega, ?_, ?_, ?_, ?_⟩
    · rw [exec_add]; exact f1
    · intro m hpos hlt
      rw [exec_add]; exact f5 m hpos hlt
    · rw [f4, frameEndCalls, hrot]; rfl
    · exact mem_passCall_isSetPixel _ _ _ _ _
  · intro hrot rnd n hmem
    have key := trace_invariant cfg rnd (fun _ => True)
      (fun c => c ≠ Call.rotateFramebuffer)
      (fun _ _ => trivial)
      (by
        rintro ⟨loc, xx, x, y, rc⟩ c _ hs
        cases loc <;> simp [step, hrot] at hs ⊢
        · subst hs; simp
        · split at hs <;> simp at hs
        · split at hs <;> simp at hs
          subst hs; simp)
      n init trivial
    exact key _ hmem rfl

/-- Witness of the amended C4: a double-buffered 2 × 2 grid, and a
single-buffered one. -/
theorem main_rotation_after_pass_witness :
    (2 ≤ 255 ∧ IterationRotatesOnce ⟨2, 2, true, false⟩)
    ∧ NeverRotates ⟨2, 2, false, false⟩ :=
  ⟨⟨by decide, (main_rotation_after_pass ⟨2, 2, true, false⟩).1 rfl (by decide) (by decide)⟩,
    (main_rotation_after_pass ⟨2, 2, false, false⟩).2 rfl⟩

theorem tallInv_step (cfg : Config) (rnd : Nat → Int) (hL : 256 ≤ cfg.NB_LINES_COUNT) :
    ∀ s, TallInv s → TallInv (step cfg rnd s).1 := by
  rintro ⟨loc, xx, x, y, rc⟩ ⟨h1, h2⟩
  simp only at h2
  cases loc
  · simp [TallInv, step, h2]
  · simp [TallInv, step]
  · have : y < cfg.NB_LINES_COUNT := by omega
    simp [TallInv, step, this, h2]
  · simp only [TallInv, step]
    split
    · simp [h2]
    · refine ⟨by simp, ?_⟩
      show incU8 y < 256
      unfold incU8; omega
  · exact absurd rfl h1

theorem tallInv_call (cfg : Config) (rnd : Nat → Int) :
    ∀ s c, TallInv s → (step cfg rnd s).2 = some c → c ≠ Call.rotateFramebuffer := by
  rintro ⟨loc, xx, x, y, rc⟩ c ⟨h1, _⟩ hs
  cases loc
  · simp [step] at hs; subst hs; simp
  · simp [step] at hs
  · simp only [step] at hs
    split at hs <;> simp at hs
  · simp only [step] at hs
    split at hs <;> simp at hs
    subst hs; simp
  · exact absurd rfl h1

/-- C10: termination of the drawing pass depends on the dimensions.  On a
grid of at least 256 columns and at least one line the test
`x < NB_COLUMNS_COUNT` holds for every value of the 8-bit counter and the
column loop never exits: after three steps every step writes one more
pixel of row 0, the column wrapping from 255 to 0; no row other than row 0
is ever written and `rotateFramebuffer` is never called.  On a grid of at
least 256 lines the line loop never exits either, and `rotateFramebuffer`
is never called. -/
theorem main_wide_grid_never_leaves_row0 (cfg : Config) (rnd : Nat → Int) :
    (256 ≤ cfg.NB_COLUMNS_COUNT → 1 ≤ cfg.NB_LINES_COUNT →
      (∀ v, v < 256 → v < cfg.NB_COLUMNS_COUNT)
      ∧ (∀ n, exec cfg rnd (n + 3) init = ⟨.xTest, wrapInt16 n, n % 256, 0, 2 * n⟩)
      ∧ (∀ n, trace cfg rnd (n + 3) init
          = Call.setupMatrixDriver :: (List.range n).map (row0Call rnd))
      ∧ (∀ n, (exec cfg rnd n init).loc ≠ .frameEnd
          ∧ Call.rotateFramebuffer ∉ trace cfg rnd n init
          ∧ ∀ x y r g b, Call.setPixelAt x y r g b ∈ trace cfg rnd n init → y = 0))
    ∧ (256 ≤ cfg.NB_LINES_COUNT →
      ∀ n, (exec cfg rnd n init).loc ≠ .frameEnd
        ∧ Call.rotateFramebuffer ∉ trace cfg rnd n init) := by
  constructor
  · intro hC hL
    refine ⟨fun v hv => by omega, fun n => (wide_run cfg rnd hC hL n).1,
      fun n => (wide_run cfg rnd hC hL n).2, fun n => ?_⟩
    have hinit : WideInv init := by simp [WideInv, init]
    have hexec := exec_invariant cfg rnd WideInv (wideInv_step cfg rnd hC hL) n init hinit
    have key := trace_invariant cfg rnd WideInv
      (fun c => c ≠ Call.rotateFramebuffer
        ∧ ∀ x y r g b, c = Call.setPixelAt x y r g b → y = 0)
      (wideInv_step cfg rnd hC hL) (wideInv_call cfg rnd) n init hinit
    refine ⟨hexec.1, fun hmem => (key _ hmem).1 rfl, ?_⟩
    intro x y r g b hmem
    exact (key _ hmem).2 x y r g b rfl
  · intro hL n
    have hinit : TallInv init := by simp [TallInv, init]
    have hexec := exec_invariant cfg rnd TallInv (tallInv_step cfg rnd hL) n init hinit
    have key := trace_invariant cfg rnd TallInv (fun c => c ≠ Call.rotateFramebuffer)
      (tallInv_step cfg rnd hL) (tallInv_call cfg rnd) n init hinit
    exact ⟨hexec.1, fun hmem => key _ hmem rfl⟩

/-- Witness of C10 on a grid of 256 columns and one line: the state after
260 steps, 257 pixels of row 0 drawn, the column counter back at 1. -/
theorem main_wide_grid_never_leaves_row0_witness :
    (256 ≤ 256 ∧ 1 ≤ 1)
    ∧ exec ⟨256, 1, true, false⟩ (fun _ => 0) (257 + 3) init
        = ⟨.xTest, wrapInt16 257, 257 % 256, 0, 2 * 257⟩ :=
  ⟨⟨Nat.le_refl 256, Nat.le_refl 1⟩,
    ((main_wide_grid_never_leaves_row0 ⟨256, 1, true, false⟩ (fun _ => 0)).1
      (Nat.le_refl 256) (Nat.le_refl 1)).2.1 257⟩

/-! ## The counter `xx` -/

theorem incInt16_wrapInt16 (cnt : Nat) :
    incInt16 (wrapInt16 cnt) = wrapInt16 ((cnt + 1 : Nat) : Int) := by
  unfold incInt16 wrapInt16; push_cast; omega

theorem narrow8_wrapInt16 (cnt : Nat) : narrow8 (wrapInt16 cnt) = cnt % 256 := by
  unfold narrow8 wrapInt16; omega

theorem wrapInt16_small (k : Nat) (h : k < 32768) : wrapInt16 k = k := by
  unfold wrapInt16; omega

theorem counterInv_step (cfg : Config) (rnd : Nat → Int) (s : State) (f cnt : Nat)
    (h : CounterInv cfg s f cnt) :
    CounterInv cfg (step cfg rnd s).1 (f + if s.loc = .frameEnd then 1 else 0)
      (cnt + ((step cfg rnd s).2.toList.filter Call.isSetPixel).length) := by
  obtain ⟨loc, xx, x, y, rc⟩ := s
  obtain ⟨hxx, hrest⟩ := h
  simp only at hxx
  cases loc
  · obtain ⟨hf, hc⟩ := hrest
    subst hf hc
    simp [CounterInv, step, hxx, Call.isSetPixel]
  · simp only at hrest
    simp only [CounterInv, step, hxx]
    refine ⟨by simp, 0, by simp, by simpa using hrest, Or.inl (Nat.zero_le _)⟩
  · obtain ⟨j, hy, hcnt, hj⟩ := hrest
    simp only at hy
    by_cases hlt : y < cfg.NB_LINES_COUNT
    · simp only [CounterInv, step, hlt, if_true, hxx]
      refine ⟨by simp, j, 0, hy, by simp, by simpa using hcnt, by omega, Or.inl (Nat.zero_le _)⟩
    · simp only [CounterInv, step, hlt, if_false, hxx]
      have hjL : j = cfg.NB_LINES_COUNT := by omega
      subst hjL
      exact ⟨by simp, by simpa using hcnt⟩
  · obtain ⟨j, i, hy, hx, hcnt, hj, hi⟩ := hrest
    simp only at hy hx
    by_cases hlt : x < cfg.NB_COLUMNS_COUNT
    · simp only [CounterInv, step, hlt, if_true, hxx]
      refine ⟨?_, j, i + 1, hy, ?_, ?_, hj, by omega⟩
      · simp [Call.isSetPixel, incInt16_wrapInt16]
      · unfold incU8; omega
      · simp [Call.isSetPixel]; omega
    · simp only [CounterInv, step, hlt, if_false, hxx]
      have hiC : i = cfg.NB_COLUMNS_COUNT := by omega
      subst hiC
      refine ⟨by simp, j + 1, ?_, ?_, by omega⟩
      · unfold incU8; omega
      · simp [Nat.add_mul]; omega
  · simp only at hrest
    simp only [CounterInv, step, hxx]
    constructor
    · cases cfg.rotates <;> simp [Call.isSetPixel]
    · cases cfg.rotates <;> simp [Call.isSetPixel, hrest, Nat.add_mul]

/-- At every moment of the run `xx` is the number of pixel writes issued so
far, and that number is fixed by the program point and the number of
iterations completed. -/
theorem counterInv_run (cfg : Config) (rnd : Nat → Int) (n : Nat) :
    CounterInv cfg (exec cfg rnd n init) (framesDone cfg rnd n)
      (pixelCalls cfg rnd n init).length := by
  induction n with
  | zero => simp [CounterInv, exec, init, framesDone, pixelCalls, trace, wrapInt16]
  | succ n ih =>
    have h := counterInv_step cfg rnd _ _ _ ih
    rw [exec_succ]
    simp only [framesDone, pixelCalls, trace_succ, List.filter_append, List.length_append]
    exact h

/-- A step either issues a pixel write with red expression `xx` and
increments `xx`, or issues no pixel write and leaves `xx` alone. -/
theorem step_pixel_cases (cfg : Config) (rnd : Nat → Int) (s : State) :
    (∃ g b, (step cfg rnd s).2 = some (Call.setPixelAt s.x s.y s.xx g b)
      ∧ (step cfg rnd s).1.xx = incInt16 s.xx)
    ∨ ((step cfg rnd s).2.toList.filter Call.isSetPixel = []
      ∧ (step cfg rnd s).1.xx = s.xx) := by
  obtain ⟨loc, xx, x, y, rc⟩ := s
  cases loc
  · right; simp [step, Call.isSetPixel]
  · right; simp [step]
  · right; simp only [step]; split <;> simp
  · simp only [step]
    split
    · left; exact ⟨_, _, rfl, rfl⟩
    · right; simp
  · right; simp only [step]
    cases cfg.rotates <;> simp [Call.isSetPixel]

/-- The `k`-th pixel write issued from a state whose counter holds `cnt`
has the red expression `cnt + k` (in 16-bit arithmetic). -/
theorem pixelCalls_red (cfg : Config) (rnd : Nat → Int) :
    ∀ (n : Nat) (s : State) (cnt : Nat), s.xx = wrapInt16 cnt →
      ∀ (k : Nat) (c : Call), (pixelCalls cfg rnd n s)[k]? = some c →
        c.redExpr = some (wrapInt16 ((cnt + k : Nat) : Int)) := by
  intro n
  induction n with
  | zero => intro s cnt _ k c hc; simp [pixelCalls, trace] at hc
  | succ n ih =>
    intro s cnt hxx k c hc
    have hsplit : pixelCalls cfg rnd (n + 1) s
        = (step cfg rnd s).2.toList.filter Call.isSetPixel
          ++ pixelCalls cfg rnd n (step cfg rnd s).1 := by
      simp [pixelCalls, trace, List.filter_append]
    rw [hsplit] at hc
    rcases step_pixel_cases cfg rnd s with ⟨g, b, h1, h2⟩ | ⟨h1, h2⟩
    · rw [h1] at hc
      simp only [Option.toList, List.filter_cons, Call.isSetPixel, if_true, List.filter_nil,
        List.singleton_append] at hc
      cases k with
      | zero =>
        simp only [List.getElem?_cons_zero, Option.some.injEq] at hc
        subst hc
        simp [Call.redExpr, hxx]
      | succ k =>
        simp only [List.getElem?_cons_succ] at hc
        have := ih _ (cnt + 1) (by rw [h2, hxx, incInt16_wrapInt16]) k c hc
        rw [this]
        congr 3
        omega
    · rw [h1, List.nil_append] at hc
      exact ih _ cnt (by rw [h2, hxx]) k c hc

/-- The first call of an iteration of `for(;;)`, when it is a pixel write:
pixel (0, 0), drawn with the value `xx` has at the top of the loop. -/
theorem first_call_of_frame (cfg : Config) (rnd : Nat → Int) (s : State)
    (hs : s.loc = .loopTop) (x y : Nat) (r g b : Int)
    (h : trace cfg rnd 3 s = [Call.setPixelAt x y r g b]) :
    x = 0 ∧ y = 0 ∧ r = s.xx := by
  obtain ⟨loc, xx, x0, y0, rc⟩ := s
  simp only at hs
  subst hs
  simp only [trace, step] at h
  by_cases hL : 0 < cfg.NB_LINES_COUNT
  · by_cases hC : 0 < cfg.NB_COLUMNS_COUNT
    · simp [hL, hC] at h
      obtain ⟨h1, h2, h3, _, _⟩ := h
      exact ⟨h1.symm, h2.symm, h3.symm⟩
    · simp [hL, hC] at h
  · simp [hL] at h
    cases hr : cfg.rotates <;> simp [hr] at h

/-- On a non-empty grid the first call of an iteration of `for(;;)` is the
write of pixel (0, 0). -/
theorem first_call_exists (cfg : Config) (rnd : Nat → Int) (s : State)
    (hs : s.loc = .loopTop)
    (hN : 0 < cfg.NB_LINES_COUNT * cfg.NB_COLUMNS_COUNT) :
    ∃ g b, trace cfg rnd 3 s = [Call.setPixelAt 0 0 s.xx g b] := by
  obtain ⟨loc, xx, x0, y0, rc⟩ := s
  simp only at hs
  subst hs
  have hL : 0 < cfg.NB_LINES_COUNT := Nat.pos_of_mul_pos_right hN
  have hC : 0 < cfg.NB_COLUMNS_COUNT := Nat.pos_of_mul_pos_left hN
  exact ⟨Int.tmod (rnd rc) 128, Int.tmod (rnd (rc + 1)) 128, by simp [trace, step, hL, hC]⟩

theorem framesDone_const (cfg : Config) (rnd : Nat → Int) (t : Nat) :
    ∀ m, (∀ m', m' < m → (exec cfg rnd (t + m') init).loc ≠ .frameEnd) →
      framesDone cfg rnd (t + m) = framesDone cfg rnd t := by
  intro m
  induction m with
  | zero => intro _; rfl
  | succ m ih =>
    intro h
    have h1 := ih (fun m' hm' => h m' (by omega))
    have h2 := h m (by omega)
    have hsucc : framesDone cfg rnd (t + (m + 1)) = framesDone cfg rnd (t + m)
        + (if (exec cfg rnd (t + m) init).loc = .frameEnd then 1 else 0) := rfl
    rw [hsucc, h1, if_neg h2, Nat.add_zero]

/-- On a grid whose dimensions fit the 8-bit counters, iteration `f` of
`for(;;)` starts at step `1 + f * frameSteps`. -/
theorem frame_times (cfg : Config) (rnd : Nat → Int)
    (hC : cfg.NB_COLUMNS_COUNT ≤ 255) (hL : cfg.NB_LINES_COUNT ≤ 255) (f : Nat) :
    (exec cfg rnd (1 + f * frameSteps cfg) init).loc = .loopTop
    ∧ framesDone cfg rnd (1 + f * frameSteps cfg) = f := by
  induction f with
  | zero => simp [exec, step, init, framesDone]
  | succ f ih =>
    obtain ⟨ih1, ih2⟩ := ih
    obtain ⟨f1, _, _, _, _⟩ := frame_run cfg rnd hC hL _ ih1
    obtain ⟨p1, _, _, _, p5⟩ := pass_run cfg rnd hC hL _ ih1
    have e : 1 + (f + 1) * frameSteps cfg = (1 + f * frameSteps cfg) + frameSteps cfg := by
      rw [Nat.add_mul, Nat.one_mul, Nat.add_assoc]
    rw [e]
    constructor
    · rw [exec_add]; exact f1
    · have hconst := framesDone_const cfg rnd (1 + f * frameSteps cfg) (passSteps cfg)
        (by
          intro m' hm'
          rw [exec_add]
          rcases Nat.eq_zero_or_pos m' with h0 | hpos
          · subst h0; simp [exec, ih1]
          · rcases p5 m' hpos hm' with h | h <;> rw [h] <;> simp)
      have hend : (exec cfg rnd (1 + f * frameSteps cfg + passSteps cfg) init).loc
          = .frameEnd := by
        rw [exec_add]; exact p1
      have hsucc : framesDone cfg rnd (1 + f * frameSteps cfg + frameSteps cfg)
          = framesDone cfg rnd (1 + f * frameSteps cfg + passSteps cfg)
            + (if (exec cfg rnd (1 + f * frameSteps cfg + passSteps cfg) init).loc = .frameEnd
                then 1 else 0) := rfl
      rw [hsucc, hconst, ih2, if_pos hend]

/-- C9: `xx` starts at 0 and at every moment equals the number of pixel
writes issued since program start (it is incremented once per write and
never reset); the `k`-th write, for `k < 32768`, has red expression `k`,
received as the intensity `k mod 256`; the first pixel of the iteration
that follows `f` completed ones is pixel (0, 0) with red intensity
`(f * NB_LINES_COUNT * NB_COLUMNS_COUNT) mod 256`; the first red of two
consecutive iterations is the same exactly when
`NB_LINES_COUNT * NB_COLUMNS_COUNT` is a multiple of 256; and on a grid of
at most 255 columns and 255 lines iteration `f` starts at step
`1 + f * frameSteps`, on a non-empty grid with such a first pixel. -/
theorem main_red_counter (cfg : Config) (rnd : Nat → Int) :
    init.xx = 0
    ∧ (∀ n, (exec cfg rnd n init).xx = wrapInt16 (pixelCalls cfg rnd n init).length)
    ∧ (∀ (n k : Nat) (c : Call), k < 32768 → (pixelCalls cfg rnd n init)[k]? = some c →
        c.redExpr = some (k : Int) ∧ ∃ g b, c.colour8 = some (k % 256, g, b))
    ∧ (∀ n x y r g b, (exec cfg rnd n init).loc = .loopTop →
        trace cfg rnd 3 (exec cfg rnd n init) = [Call.setPixelAt x y r g b] →
        x = 0 ∧ y = 0 ∧ narrow8 r
          = (framesDone cfg rnd n * (cfg.NB_LINES_COUNT * cfg.NB_COLUMNS_COUNT)) % 256)
    ∧ (∀ n n' x y r g b x' y' r' g' b',
        (exec cfg rnd n init).loc = .loopTop → (exec cfg rnd n' init).loc = .loopTop →
        framesDone cfg rnd n' = framesDone cfg rnd n + 1 →
        trace cfg rnd 3 (exec cfg rnd n init) = [Call.setPixelAt x y r g b] →
        trace cfg rnd 3 (exec cfg rnd n' init) = [Call.setPixelAt x' y' r' g' b'] →
        (narrow8 r = narrow8 r' ↔ (cfg.NB_LINES_COUNT * cfg.NB_COLUMNS_COUNT) % 256 = 0))
    ∧ (cfg.NB_COLUMNS_COUNT ≤ 255 → cfg.NB_LINES_COUNT ≤ 255 → ∀ f,
        (exec cfg rnd (1 + f * frameSteps cfg) init).loc = .loopTop
        ∧ framesDone cfg rnd (1 + f * frameSteps cfg) = f
        ∧ (0 < cfg.NB_LINES_COUNT * cfg.NB_COLUMNS_COUNT →
            ∃ r g b, trace cfg rnd 3 (exec cfg rnd (1 + f * frameSteps cfg) init)
              = [Call.setPixelAt 0 0 r g b])) := by
  have hfirst : ∀ n x y r g b, (exec cfg rnd n init).loc = .loopTop →
      trace cfg rnd 3 (exec cfg rnd n init) = [Call.setPixelAt x y r g b] →
      x = 0 ∧ y = 0 ∧ narrow8 r
        = (framesDone cfg rnd n * (cfg.NB_LINES_COUNT * cfg.NB_COLUMNS_COUNT)) % 256 := by
    intro n x y r g b hloc htr
    obtain ⟨hx, hy, hr⟩ := first_call_of_frame cfg rnd _ hloc x y r g b htr
    obtain ⟨hxx, hcnt⟩ := counterInv_run cfg rnd n
    rw [hloc] at hcnt
    simp only at hcnt
    refine ⟨hx, hy, ?_⟩
    rw [hr, hxx, narrow8_wrapInt16, hcnt]
  refine ⟨rfl, fun n => (counterInv_run cfg rnd n).1, ?_, hfirst, ?_, ?_⟩
  · intro n k c hk hc
    have hred := pixelCalls_red cfg rnd n init 0 (by simp [init, wrapInt16]) k c hc
    rw [Nat.zero_add, wrapInt16_small k hk] at hred
    refine ⟨hred, ?_⟩
    cases c with
    | setupMatrixDriver => simp [Call.redExpr] at hred
    | rotateFramebuffer => simp [Call.redExpr] at hred
    | setPixelAt x y r g b =>
      simp only [Call.redExpr, Option.some.injEq] at hred
      subst hred
      refine ⟨narrow8 g, narrow8 b, ?_⟩
      have h8 : narrow8 (k : Int) = k % 256 := by unfold narrow8; omega
      simp only [Call.colour8, h8]
  · intro n n' x y r g b x' y' r' g' b' hloc hloc' hf htr htr'
    obtain ⟨_, _, h1⟩ := hfirst n x y r g b hloc htr
    obtain ⟨_, _, h2⟩ := hfirst n' x' y' r' g' b' hloc' htr'
    rw [h1, h2, hf, Nat.add_mul, Nat.one_mul]
    omega
  · intro hC hL f
    obtain ⟨t1, t2⟩ := frame_times cfg rnd hC hL f
    refine ⟨t1, t2, fun hN => ?_⟩
    obtain ⟨g, b, h⟩ := first_call_exists cfg rnd _ t1 hN
    exact ⟨_, g, b, h⟩

/-- Witness of C9 on a double-buffered 2 × 2 grid: the fourth pixel write
has red expression 3, and the second iteration, which starts at step 12,
draws its first pixel with red 4. -/
theorem main_red_counter_witness :
    ((3 < 32768
        ∧ (pixelCalls ⟨2, 2, true, false⟩ (fun _ => 0) 9 init)[3]?
            = some (Call.setPixelAt 1 1 3 0 0))
      ∧ (Call.setPixelAt 1 1 3 0 0).redExpr = some 3)
    ∧ ((exec ⟨2, 2, true, false⟩ (fun _ => 0) 12 init).loc = .loopTop
        ∧ trace ⟨2, 2, true, false⟩ (fun _ => 0) 3 (exec ⟨2, 2, true, false⟩ (fun _ => 0) 12 init)
            = [Call.setPixelAt 0 0 4 0 0])
    ∧ narrow8 4 = (framesDone ⟨2, 2, true, false⟩ (fun _ => 0) 12 * (2 * 2)) % 256 :=
  ⟨⟨⟨by decide, by decide⟩,
      ((main_red_counter ⟨2, 2, true, false⟩ (fun _ => 0)).2.2.1 9 3
        (Call.setPixelAt 1 1 3 0 0) (by decide) (by decide)).1⟩,
    ⟨by decide, by decide⟩,
    ((main_red_counter ⟨2, 2, true, false⟩ (fun _ => 0)).2.2.2.1 12 0 0 4 0 0
      (by decide) (by decide)).2.2⟩

/-! ## The colour arguments -/

theorem offset_lt (C L col row : Nat) (hc : col < C) (hr : row < L) :
    offset C col row < C * L := by
  unfold offset
  calc row * C + col < row * C + C := by omega
    _ = (row + 1) * C := by rw [Nat.add_mul, Nat.one_mul]
    _ ≤ L * C := Nat.mul_le_mul_right _ hr
    _ = C * L := Nat.mul_comm _ _

theorem offset_injective (C col row col' row' : Nat) (hc : col < C) (hc' : col' < C)
    (h : offset C col row = offset C col' row') : col = col' ∧ row = row' := by
  unfold offset at h
  have hm := congrArg (· % C) h
  have hd := congrArg (· / C) h
  simp only [offset_mod _ _ _ hc, offset_mod _ _ _ hc', offset_div _ _ _ hc,
    offset_div _ _ _ hc'] at hm hd
  exact ⟨hm, hd⟩

/-- C3: the row-major addressing function `offset = row * COLUMNS + column`
is a bijection from `[0, COLUMNS) × [0, LINES)` onto `[0, COLUMNS * LINES)`:
distinct valid pairs have distinct offsets, every offset of a valid pair
is below `COLUMNS * LINES`, and every offset below `COLUMNS * LINES` is
that of a valid pair; for `COLUMNS = 4`, `LINES = 2` the eight pairs map
onto 0..7.  This holds for all dimensions, in particular those that are at
least 1. -/
theorem offset_bijective (COLUMNS LINES : Nat) :
    (∀ col row col' row', col < COLUMNS → row < LINES → col' < COLUMNS → row' < LINES →
      offset COLUMNS col row = offset COLUMNS col' row' → col = col' ∧ row = row')
    ∧ (∀ col row, col < COLUMNS → row < LINES → offset COLUMNS col row < COLUMNS * LINES)
    ∧ (∀ o, o < COLUMNS * LINES →
        ∃ col row, col < COLUMNS ∧ row < LINES ∧ offset COLUMNS col row = o)
    ∧ [offset 4 0 0, offset 4 1 0, offset 4 2 0, offset 4 3 0,
        offset 4 0 1, offset 4 1 1, offset 4 2 1, offset 4 3 1] = [0, 1, 2, 3, 4, 5, 6, 7] := by
  refine ⟨?_, ?_, ?_, rfl⟩
  · intro col row col' row' hc _ hc' _ h
    exact offset_injective COLUMNS col row col' row' hc hc' h
  · intro col row hc hr
    exact offset_lt COLUMNS LINES col row hc hr
  · intro o ho
    have hpos : 0 < COLUMNS := Nat.pos_of_mul_pos_right (Nat.lt_of_le_of_lt (Nat.zero_le _) ho)
    refine ⟨o % COLUMNS, o / COLUMNS, Nat.mod_lt _ hpos, Nat.div_lt_of_lt_mul ho, ?_⟩
    unfold offset
    exact Nat.div_add_mod' o COLUMNS

/-- Witness of C3 on the 4 × 2 grid: the offset of (3, 1) is below 8, and
offset 6 is that of a valid pair. -/
theorem offset_bijective_witness :
    (offset 4 3 1 < 4 * 2)
    ∧ (∃ col row, col < 4 ∧ row < 2 ∧ offset 4 col row = 6) :=
  ⟨(offset_bijective 4 2).2.1 3 1 (by decide) (by decide),
    (offset_bijective 4 2).2.2.1 6 (by decide)⟩

/-- C7: on a grid holding `COLUMNS * LINES` cells, writing a colour triple
with components in 0..255 at a valid coordinate and reading that
coordinate back returns the triple; every other valid coordinate reads as
before, no cell at another offset is changed, and the dimensions of the
grid stay the same. -/
theorem set_get_roundtrip (grid : PixelGrid) (hwf : grid.WellFormed)
    (col row r g b : Nat) (hcol : col < grid.COLUMNS) (hrow : row < grid.LINES)
    (hr : r ≤ 255) (hg : g ≤ 255) (hb : b ≤ 255) :
    (grid.set col row r g b).get col row = (r, g, b)
    ∧ (∀ col' row', col' < grid.COLUMNS → row' < grid.LINES → (col', row') ≠ (col, row) →
        (grid.set col row r g b).get col' row' = grid.get col' row')
    ∧ (∀ o, o ≠ offset grid.COLUMNS col row →
        (grid.set col row r g b).cells[o]? = grid.cells[o]?)
    ∧ (grid.set col row r g b).COLUMNS = grid.COLUMNS
    ∧ (grid.set col row r g b).LINES = grid.LINES
    ∧ (grid.set col row r g b).WellFormed := by
  have hlt : offset grid.COLUMNS col row < grid.cells.length := by
    rw [hwf]; exact offset_lt _ _ _ _ hcol hrow
  have hset : grid.set col row r g b =
      { grid with
        cells := grid.cells.set (offset grid.COLUMNS col row) (r % 256, g % 256, b % 256) } := by
    unfold PixelGrid.set
    rw [if_pos ⟨hcol, hrow⟩]
  have hr' : r % 256 = r := Nat.mod_eq_of_lt (by omega)
  have hg' : g % 256 = g := Nat.mod_eq_of_lt (by omega)
  have hb' : b % 256 = b := Nat.mod_eq_of_lt (by omega)
  refine ⟨?_, ?_, ?_, ?_, ?_, ?_⟩
  · rw [hset]
    simp [PixelGrid.get, List.getElem?_set_self hlt, hr', hg', hb']
  · intro col' row' hcol' _ hne
    have hoff : offset grid.COLUMNS col row ≠ offset grid.COLUMNS col' row' := by
      intro h
      obtain ⟨h1, h2⟩ := offset_injective _ _ _ _ _ hcol hcol' h
      exact hne (by rw [h1, h2])
    rw [hset]
    simp [PixelGrid.get, List.getElem?_set_ne hoff]
  · intro o ho
    rw [hset]
    simp [List.getElem?_set_ne (Ne.symm ho)]
  · rw [hset]
  · rw [hset]
  · rw [hset]
    unfold PixelGrid.WellFormed
    simpa using hwf

/-- Witness of C7 on a blank 2 × 2 grid: writing (10, 20, 30) at (1, 1). -/
theorem set_get_roundtrip_witness :
    (PixelGrid.blank 2 2).WellFormed
    ∧ ((PixelGrid.blank 2 2).set 1 1 10 20 30).get 1 1 = (10, 20, 30) :=
  ⟨by decide,
    (set_get_roundtrip (PixelGrid.blank 2 2) (by decide) 1 1 10 20 30
      (by decide) (by decide) (by decide) (by decide) (by decide)).1⟩

/-- A pixel write goes to the buffer that is Writing and leaves the roles
and the ScanActive buffer alone. -/
theorem setPixelAt_buffers (p : FrameBufferPool) (hv : p.Valid) (col row r g b : Nat) :
    (p.setPixelAt col row r g b).writeIndex = p.writeIndex
    ∧ (p.setPixelAt col row r g b).scanIndex = p.scanIndex
    ∧ (p.setPixelAt col row r g b).writeBuffer = p.writeBuffer.set col row r g b
    ∧ (p.setPixelAt col row r g b).scanBuffer = p.scanBuffer := by
  obtain ⟨a, b', w, sc⟩ := p
  obtain ⟨hw, hs, hne⟩ := hv
  simp only at hw hs hne
  by_cases h0 : w = 0
  · subst h0
    have hs0 : sc ≠ 0 := fun h => hne h.symm
    simp [FrameBufferPool.setPixelAt, FrameBufferPool.writeBuffer,
      FrameBufferPool.scanBuffer, FrameBufferPool.slot, hs0]
  · have hs0 : sc = 0 := by omega
    subst hs0
    simp [FrameBufferPool.setPixelAt, FrameBufferPool.writeBuffer,
      FrameBufferPool.scanBuffer, FrameBufferPool.slot, h0]

theorem setAll_buffers :
    ∀ (ws : List PixelWrite) (p : FrameBufferPool), p.Valid →
      (p.setAll ws).writeIndex = p.writeIndex
      ∧ (p.setAll ws).scanIndex = p.scanIndex
      ∧ (p.setAll ws).writeBuffer = p.writeBuffer.setAll ws
      ∧ (p.setAll ws).scanBuffer = p.scanBuffer := by
  intro ws
  induction ws with
  | nil => intro p _; simp [FrameBufferPool.setAll, PixelGrid.setAll]
  | cons w ws ih =>
    intro p hv
    obtain ⟨h1, h2, h3, h4⟩ := setPixelAt_buffers p hv w.1 w.2.1 w.2.2.1 w.2.2.2.1 w.2.2.2.2
    have hv' : (p.setPixelAt w.1 w.2.1 w.2.2.1 w.2.2.2.1 w.2.2.2.2).Valid := by
      unfold FrameBufferPool.Valid at hv ⊢
      rw [h1, h2]; exact hv
    obtain ⟨i1, i2, i3, i4⟩ := ih _ hv'
    simp only [FrameBufferPool.setAll, PixelGrid.setAll, List.foldl_cons] at i1 i2 i3 i4 ⊢
    refine ⟨i1.trans h1, i2.trans h2, ?_, i4.trans h4⟩
    rw [i3, h3]

/-- C8: with double buffering, `rotateFramebuffer` swaps the two roles: the
slot that was Writing is ScanActive afterwards and the slot that was
ScanActive is Writing; before and after the call the two indices differ
and cover both slots, so no slot is Idle; the buffer that is ScanActive
after the call holds exactly what was written into the Writing buffer
before it, and the new Writing buffer holds what the ScanActive buffer
held. -/
theorem rotate_swaps_roles (p : FrameBufferPool) (hv : p.Valid) :
    p.rotateFramebuffer.role p.writeIndex = .ScanActive
    ∧ p.rotateFramebuffer.role p.scanIndex = .Writing
    ∧ p.role p.writeIndex = .Writing ∧ p.role p.scanIndex = .ScanActive
    ∧ p.rotateFramebuffer.Valid
    ∧ (∀ i, i < 2 → i = p.writeIndex ∨ i = p.scanIndex)
    ∧ (∀ i, i < 2 → i = p.rotateFramebuffer.writeIndex ∨ i = p.rotateFramebuffer.scanIndex)
    ∧ (∀ i, i < 2 → p.rotateFramebuffer.role i ≠ .Idle)
    ∧ p.rotateFramebuffer.scanBuffer = p.writeBuffer
    ∧ p.rotateFramebuffer.writeBuffer = p.scanBuffer
    ∧ (∀ ws : List PixelWrite,
        (p.setAll ws).rotateFramebuffer.scanBuffer = p.writeBuffer.setAll ws
        ∧ (p.setAll ws).rotateFramebuffer.writeBuffer = p.scanBuffer) := by
  obtain ⟨hw, hs, hne⟩ := hv
  refine ⟨?_, ?_, ?_, ?_, ?_, ?_, ?_, ?_, rfl, rfl, ?_⟩
  · simp [FrameBufferPool.role, FrameBufferPool.rotateFramebuffer, hne]
  · simp [FrameBufferPool.role, FrameBufferPool.rotateFramebuffer]
  · simp [FrameBufferPool.role]
  · simp [FrameBufferPool.role, Ne.symm hne]
  · exact ⟨hs, hw, Ne.symm hne⟩
  · intro i hi; omega
  · intro i hi
    simp only [FrameBufferPool.rotateFramebuffer]; omega
  · intro i hi
    have : i = p.scanIndex ∨ i = p.writeIndex := by omega
    rcases this with h | h <;> subst h <;>
      simp [FrameBufferPool.role, FrameBufferPool.rotateFramebuffer, hne]
  · intro ws
    obtain ⟨_, _, h3, h4⟩ := setAll_buffers ws p ⟨hw, hs, hne⟩
    exact ⟨h3, h4⟩

/-- Witness of C8, the end-to-end scenario on a 2 × 2 grid: four pixel
writes and one rotation after setup. -/
theorem rotate_swaps_roles_witness :
    (FrameBufferPool.setup 2 2).Valid
    ∧ (((FrameBufferPool.setup 2 2).setAll
          [(0, 0, 255, 0, 0), (1, 0, 0, 255, 0), (0, 1, 0, 0, 255), (1, 1, 10, 20, 30)]
        ).rotateFramebuffer.scanBuffer
        = (FrameBufferPool.setup 2 2).writeBuffer.setAll
            [(0, 0, 255, 0, 0), (1, 0, 0, 255, 0), (0, 1, 0, 0, 255), (1, 1, 10, 20, 30)]
      ∧ ((FrameBufferPool.setup 2 2).setAll
          [(0, 0, 255, 0, 0), (1, 0, 0, 255, 0), (0, 1, 0, 0, 255), (1, 1, 10, 20, 30)]
        ).rotateFramebuffer.writeBuffer
        = (FrameBufferPool.setup 2 2).scanBuffer)
    ∧ ((FrameBufferPool.setup 2 2).writeBuffer.setAll
          [(0, 0, 255, 0, 0), (1, 0, 0, 255, 0), (0, 1, 0, 0, 255), (1, 1, 10, 20, 30)]).cells
        = [(255, 0, 0), (0, 255, 0), (0, 0, 255), (10, 20, 30)] :=
  ⟨by decide,
    (rotate_swaps_roles (FrameBufferPool.setup 2 2) (by decide)).2.2.2.2.2.2.2.2.2.2
      [(0, 0, 255, 0, 0), (1, 0, 0, 255, 0), (0, 1, 0, 0, 255), (1, 1, 10, 20, 30)],
    by decide⟩

end RgbMatrix
